import Mathlib

/-!
Verification of the myCORE habit/task tracker core logic.

Shallow embedding of the scheduling engine, streak & strength calculator,
instance store, suggestion engine, and task/project store from
`src/utils.ts` and `src/services/mockDb.ts`.

Modelling conventions:
* Calendar dates (ISO `YYYY-MM-DD` strings in the source) are represented by
  their epoch-day number as an `Int`; `formatDate` is injective and
  `new Date(s).getTime()` is strictly monotone in the epoch day, so string
  equality and timestamp comparison coincide with `Int` equality/order.
* `new Date(dateStr).getDay()` (day of week, Sunday = 0 … Saturday = 6, with
  the date-only string parsed as UTC midnight) is `(epochDay + 4) % 7`
  (1970-01-01 was a Thursday).
* JS numbers are modelled as `ℚ`; `Math.round x` is `⌊x + 1/2⌋`.
* The composite instance identifier `` `${dateStr}_${h.id}` `` is modelled as
  the pair of its two components: the date part of the string has fixed
  length, so the string is injective in the pair.
* JS `Array.prototype.sort` is stable (ES2019); the comparator in the source
  orders by date descending, so the sort is modelled by a stable insertion
  sort on the date key, descending.
* "today" (`formatDate(new Date())` in the source) is an explicit parameter.
* Fields never touched by the verified logic (icons, trigger descriptors,
  titles, …) are elided from the records.
-/

namespace MyCore

/-- Modelled from the spec: the interest-category enum (`types.ts` is not in
the given sources); the five members used by the suggested-habit catalog. -/
inductive InterestType where
  | HEALTH
  | FINANCE
  | DETOX
  | LEARNING
  | PRODUCTIVITY
deriving DecidableEq, Repr

/-- Modelled from the spec: the recurrence-rule enum (`types.ts` is not in
the given sources); spec §3 lists `DAILY | WEEKDAYS | WEEKENDS | CUSTOM`. -/
inductive ScheduleType where
  | DAILY
  | WEEKDAYS
  | WEEKENDS
  | CUSTOM
deriving DecidableEq, Repr

/-- A habit definition (`Habit` in `types.ts`, fields as used by
`mockDb.ts`). -/
structure Habit where
  id : String
  name : String
  interest : InterestType
  schedule : ScheduleType
  streak : Nat := 0
deriving DecidableEq, Repr

/-- The composite instance identifier `` `${dateStr}_${habitId}` ``,
modelled as the pair of its components. -/
structure InstanceId where
  date : Int
  habitId : String
deriving DecidableEq, Repr

/-- A materialized habit occurrence (`HabitInstance` in `types.ts`):
habit reference, date, completed flag, optional completion timestamp,
optional numeric value. -/
structure HabitInstance where
  id : InstanceId
  habitId : String
  date : Int
  completed : Bool
  completedAt : Option Nat := none
  value : Option Int := none
deriving DecidableEq, Repr

/-! ## Sorting by date descending (`[...instances].sort((a, b) => ...)`) -/

/-- Insert into a list keeping elements ordered by `date` descending;
an element is placed before the first strictly older element, so that
equal dates keep their original relative order (stable). -/
def insertDesc (x : HabitInstance) : List HabitInstance → List HabitInstance
  | [] => [x]
  | y :: ys => if y.date ≤ x.date then x :: y :: ys else y :: insertDesc x ys

/-- Stable sort by date descending, the model of
`[...instances].sort((a, b) => new Date(b.date).getTime() - new Date(a.date).getTime())`. -/
def sortDesc : List HabitInstance → List HabitInstance
  | [] => []
  | x :: xs => insertDesc x (sortDesc xs)

theorem mem_insertDesc {a x : HabitInstance} {s : List HabitInstance} :
    a ∈ insertDesc x s ↔ a = x ∨ a ∈ s := by
  induction s with
  | nil => simp [insertDesc]
  | cons y ys ih =>
      simp only [insertDesc]
      split
      · simp
      · simp [ih]
        tauto

theorem mem_sortDesc {a : HabitInstance} {l : List HabitInstance} :
    a ∈ sortDesc l ↔ a ∈ l := by
  induction l with
  | nil => simp [sortDesc]
  | cons x xs ih => simp [sortDesc, mem_insertDesc, ih]

theorem insertDesc_perm (x : HabitInstance) (s : List HabitInstance) :
    (insertDesc x s).Perm (x :: s) := by
  induction s with
  | nil => simp [insertDesc]
  | cons y ys ih =>
      simp only [insertDesc]
      split
      · exact List.Perm.refl _
      · exact (List.Perm.cons y ih).trans (List.Perm.swap x y ys)

theorem sortDesc_perm (l : List HabitInstance) : (sortDesc l).Perm l := by
  induction l with
  | nil => simp [sortDesc]
  | cons x xs ih => exact (insertDesc_perm x (sortDesc xs)).trans (List.Perm.cons x ih)

/-! ## Streak walk (`getHabitStreak` in `src/utils.ts`, lines 63–77) -/

/-- The newest-to-oldest walk of `getHabitStreak`: completed instances
increment the counter; an incomplete instance dated today is skipped;
any other incomplete instance stops the walk. -/
def streakLoop (today : Int) : List HabitInstance → Nat
  | [] => 0
  | inst :: rest =>
      if inst.completed then streakLoop today rest + 1
      else if inst.date = today then streakLoop today rest
      else 0

/-- `getHabitStreak` from `src/utils.ts`: sort by date descending, then walk. -/
def getHabitStreak (today : Int) (instances : List HabitInstance) : Nat :=
  streakLoop today (sortDesc instances)

/-- Length of the leading run of completed instances of a list
(the spec's "count of the leading run of completed entries"). -/
def leadingCompleted (l : List HabitInstance) : Nat :=
  (l.takeWhile (fun i => i.completed)).length

theorem streakLoop_eq_leadingCompleted {today : Int} {s : List HabitInstance}
    (h : ∀ i ∈ s, i.date ≠ today) :
    streakLoop today s = leadingCompleted s := by
  induction s with
  | nil => simp [streakLoop, leadingCompleted]
  | cons x xs ih =>
      have hx : x.date ≠ today := h x (by simp)
      have hxs : ∀ i ∈ xs, i.date ≠ today := fun i hi => h i (by simp [hi])
      by_cases hc : x.completed
      · simp [streakLoop, leadingCompleted, hc, List.takeWhile_cons,
          ih hxs]
      · simp [streakLoop, leadingCompleted, hc, hx, List.takeWhile_cons]

/-- C1: for instance lists with pairwise-distinct dates none of which is
today, `getHabitStreak` returns the length of the leading completed run of
the date-descending sort; in particular it is 0 when the newest (first
sorted) instance is incomplete. -/
theorem getHabitStreak_leading_run (today : Int) (l : List HabitInstance)
    (_hnodup : (l.map (fun i => i.date)).Nodup)
    (hnotoday : ∀ i ∈ l, i.date ≠ today) :
    getHabitStreak today l = leadingCompleted (sortDesc l) ∧
      (∀ i, (sortDesc l).head? = some i → i.completed = false →
        getHabitStreak today l = 0) := by
  have hsorted : ∀ i ∈ sortDesc l, i.date ≠ today := fun i hi =>
    hnotoday i (mem_sortDesc.mp hi)
  refine ⟨streakLoop_eq_leadingCompleted hsorted, ?_⟩
  intro i hhead hinc
  have hmain := streakLoop_eq_leadingCompleted hsorted
  rw [getHabitStreak] at *
  rw [hmain]
  cases hs : sortDesc l with
  | nil => simp [leadingCompleted]
  | cons a rest =>
      rw [hs] at hhead
      simp only [List.head?_cons, Option.some.injEq] at hhead
      subst hhead
      simp [leadingCompleted, List.takeWhile_cons, hinc]

theorem insertDesc_comm {x t : HabitInstance} (hne : x.date ≠ t.date)
    (s : List HabitInstance) :
    insertDesc x (insertDesc t s) = insertDesc t (insertDesc x s) := by
  induction s with
  | nil =>
      rcases lt_or_gt_of_ne hne with hlt | hgt
      · have h1 : x.date ≤ t.date := le_of_lt hlt
        have h2 : ¬ t.date ≤ x.date := by omega
        simp [insertDesc, h1, h2]
      · have h1 : t.date ≤ x.date := le_of_lt hgt
        have h2 : ¬ x.date ≤ t.date := by omega
        simp [insertDesc, h1, h2]
  | cons y ys ih =>
      by_cases hyt : y.date ≤ t.date <;> by_cases hyx : y.date ≤ x.date
      · rcases lt_or_gt_of_ne hne with hlt | hgt
        · have h1 : x.date ≤ t.date := le_of_lt hlt
          have h2 : ¬ t.date ≤ x.date := by omega
          simp [insertDesc, hyt, hyx, h1, h2]
        · have h1 : t.date ≤ x.date := le_of_lt hgt
          have h2 : ¬ x.date ≤ t.date := by omega
          simp [insertDesc, hyt, hyx, h1, h2]
      · have h2 : ¬ t.date ≤ x.date := by omega
        simp [insertDesc, hyt, hyx, h2]
      · have h2 : ¬ x.date ≤ t.date := by omega
        simp [insertDesc, hyt, hyx, h2]
      · simp [insertDesc, hyt, hyx, ih]

theorem sortDesc_append_today {today : Int} {t : HabitInstance}
    (ht : t.date = today) (l : List HabitInstance)
    (hl : ∀ i ∈ l, i.date ≠ today) :
    sortDesc (l ++ [t]) = insertDesc t (sortDesc l) := by
  induction l with
  | nil => simp [sortDesc]
  | cons x xs ih =>
      have hx : x.date ≠ t.date := by
        rw [ht]; exact hl x (by simp)
      have hxs : ∀ i ∈ xs, i.date ≠ today := fun i hi => hl i (by simp [hi])
      simp only [List.cons_append, sortDesc, List.append_eq]
      rw [ih hxs]
      exact insertDesc_comm hx (sortDesc xs)

theorem streakLoop_insert_today {today : Int} {t : HabitInstance}
    (ht : t.date = today) (hc : t.completed = false)
    (s : List HabitInstance) (hs : ∀ i ∈ s, i.date ≠ today) :
    streakLoop today (insertDesc t s) = streakLoop today s := by
  induction s with
  | nil => simp [insertDesc, streakLoop, hc, ht]
  | cons y ys ih =>
      have hy : y.date ≠ today := hs y (by simp)
      have hys : ∀ i ∈ ys, i.date ≠ today := fun i hi => hs i (by simp [hi])
      simp only [insertDesc]
      split
      · simp [streakLoop, hc, ht]
      · by_cases hyc : y.completed
        · simp [streakLoop, hyc, ih hys]
        · simp [streakLoop, hyc, hy]

/-- C2: appending a single incomplete instance dated today to a list with no
instance dated today leaves the computed streak unchanged. -/
theorem getHabitStreak_append_incomplete_today (today : Int)
    (l : List HabitInstance) (t : HabitInstance)
    (hl : ∀ i ∈ l, i.date ≠ today)
    (ht : t.date = today) (hc : t.completed = false) :
    getHabitStreak today (l ++ [t]) = getHabitStreak today l := by
  rw [getHabitStreak, getHabitStreak, sortDesc_append_today ht l hl]
  exact streakLoop_insert_today ht hc (sortDesc l)
    (fun i hi => hl i (mem_sortDesc.mp hi))

/-- Witness for C2: a two-day completed history is unaffected by today's
still-open instance. -/
theorem getHabitStreak_append_incomplete_today_witness :
    getHabitStreak 10
        ([⟨⟨5, "h"⟩, "h", 5, true, none, none⟩,
          ⟨⟨4, "h"⟩, "h", 4, true, none, none⟩] ++
         [⟨⟨10, "h"⟩, "h", 10, false, none, none⟩]) =
      getHabitStreak 10
        [⟨⟨5, "h"⟩, "h", 5, true, none, none⟩,
         ⟨⟨4, "h"⟩, "h", 4, true, none, none⟩] :=
  getHabitStreak_append_incomplete_today 10 _ _ (by decide) (by decide)
    (by decide)

/-- Witness for C1 at a concrete three-instance history. -/
theorem getHabitStreak_leading_run_witness :
    getHabitStreak 10
        [⟨⟨5, "h"⟩, "h", 5, true, none, none⟩,
         ⟨⟨4, "h"⟩, "h", 4, true, none, none⟩,
         ⟨⟨3, "h"⟩, "h", 3, false, none, none⟩] =
      leadingCompleted (sortDesc
        [⟨⟨5, "h"⟩, "h", 5, true, none, none⟩,
         ⟨⟨4, "h"⟩, "h", 4, true, none, none⟩,
         ⟨⟨3, "h"⟩, "h", 3, false, none, none⟩]) :=
  (getHabitStreak_leading_run 10 _ (by decide) (by decide)).1

/-! ## Strength score (`calculateHabitStrength` in `src/utils.ts`, lines 30–61) -/

/-- JS `Math.round`: round half toward positive infinity. -/
def jsRound (x : ℚ) : Int := ⌊x + 1 / 2⌋

/-- `calculateHabitStrength` from `src/utils.ts`: streak walk over the
date-descending sort, then a 70/30 blend of completion rate and the
21-day-capped streak bonus, rounded; 0 for an empty instance list. -/
def calculateHabitStrength (today : Int) (instances : List HabitInstance) : Int :=
  let sorted := sortDesc instances
  let currentStreak := streakLoop today sorted
  let totalCompleted := (sorted.filter (fun i => i.completed)).length
  let totalInstances := sorted.length
  if totalInstances = 0 then 0
  else
    let completionRate : ℚ := ((totalCompleted : ℚ) / (totalInstances : ℚ)) * 100
    let streakBonus : ℚ := (((min currentStreak 21 : ℕ) : ℚ) / 21) * 100
    jsRound (completionRate * (7 / 10) + streakBonus * (3 / 10))

/-- The spec's completion rate: `100 * completedCount / totalCount`. -/
def completionRateSpec (instances : List HabitInstance) : ℚ :=
  100 * ((instances.filter (fun i => i.completed)).length : ℚ) / instances.length

/-- The spec's streak bonus: `100 * min(streak, 21) / 21`, with `streak`
the value of the streak walk. -/
def streakBonusSpec (today : Int) (instances : List HabitInstance) : ℚ :=
  100 * ((min (getHabitStreak today instances) 21 : ℕ) : ℚ) / 21

/-- The spec's score: `round(completionRate * 0.7 + streakBonus * 0.3)`. -/
def strengthSpec (today : Int) (instances : List HabitInstance) : Int :=
  jsRound (completionRateSpec instances * (7 / 10) +
    streakBonusSpec today instances * (3 / 10))

theorem jsRound_nonneg_le {x : ℚ} (h0 : 0 ≤ x) (h1 : x ≤ 100) :
    0 ≤ jsRound x ∧ jsRound x ≤ 100 := by
  constructor
  · exact Int.le_floor.mpr (by push_cast; linarith)
  · have h : jsRound x < 101 := by
      rw [jsRound, Int.floor_lt]
      push_cast
      linarith
    omega

theorem strength_expr_bounds (c t s : ℕ) (hct : c ≤ t) (ht : 1 ≤ t) :
    0 ≤ jsRound ((((c : ℚ) / (t : ℚ)) * 100) * (7 / 10) +
        ((((min s 21 : ℕ) : ℚ) / 21) * 100) * (3 / 10)) ∧
      jsRound ((((c : ℚ) / (t : ℚ)) * 100) * (7 / 10) +
        ((((min s 21 : ℕ) : ℚ) / 21) * 100) * (3 / 10)) ≤ 100 := by
  have htq : (0 : ℚ) < (t : ℚ) := by exact_mod_cast ht
  have hcr0 : (0 : ℚ) ≤ (c : ℚ) / (t : ℚ) * 100 := by positivity
  have hcr1 : (c : ℚ) / (t : ℚ) * 100 ≤ 100 := by
    have hdiv : (c : ℚ) / (t : ℚ) ≤ 1 := by
      rw [div_le_one htq]
      exact_mod_cast hct
    linarith
  have hmin : ((min s 21 : ℕ) : ℚ) ≤ 21 := by
    exact_mod_cast Nat.min_le_right s 21
  have hs0 : (0 : ℚ) ≤ ((min s 21 : ℕ) : ℚ) / 21 * 100 := by positivity
  have hs1 : ((min s 21 : ℕ) : ℚ) / 21 * 100 ≤ 100 := by
    have : ((min s 21 : ℕ) : ℚ) / 21 ≤ 1 := by
      rw [div_le_one (by norm_num)]
      exact hmin
    linarith
  exact jsRound_nonneg_le (by linarith) (by linarith)

/-- C3: `calculateHabitStrength` is 0 on the empty list; on nonempty lists
it equals the spec's rounded 70/30 blend; it always lies in [0, 100]; and
for an all-completed list with streak at least 21 the streak-bonus term
saturates at 100. -/
theorem habit_strength_score :
    (∀ today : Int, calculateHabitStrength today [] = 0) ∧
    (∀ (today : Int) (l : List HabitInstance), l ≠ [] →
      calculateHabitStrength today l = strengthSpec today l) ∧
    (∀ (today : Int) (l : List HabitInstance),
      0 ≤ calculateHabitStrength today l ∧
        calculateHabitStrength today l ≤ 100) ∧
    (∀ (today : Int) (l : List HabitInstance), l ≠ [] →
      (∀ i ∈ l, i.completed = true) → 21 ≤ getHabitStreak today l →
      streakBonusSpec today l = 100) := by
  refine ⟨?_, ?_, ?_, ?_⟩
  · intro today
    simp [calculateHabitStrength, sortDesc]
  · intro today l hne
    have hperm := sortDesc_perm l
    have hlen : (sortDesc l).length = l.length := hperm.length_eq
    have hfilt : ((sortDesc l).filter (fun i => i.completed)).length =
        (l.filter (fun i => i.completed)).length :=
      (hperm.filter _).length_eq
    have hlne : l.length ≠ 0 := by
      simpa using hne
    simp only [calculateHabitStrength, strengthSpec, completionRateSpec,
      streakBonusSpec, getHabitStreak, hlen, hfilt, if_neg hlne]
    congr 1
    ring
  · intro today l
    rcases eq_or_ne (sortDesc l).length 0 with h | h
    · constructor <;> simp [calculateHabitStrength, h]
    · have hb := strength_expr_bounds
        ((sortDesc l).filter (fun i => i.completed)).length
        (sortDesc l).length (streakLoop today (sortDesc l))
        (List.length_filter_le _ _) (Nat.one_le_iff_ne_zero.mpr h)
      simpa [calculateHabitStrength, h] using hb
  · intro today l hne hall hstreak
    have hmin : min (getHabitStreak today l) 21 = 21 :=
      min_eq_right hstreak
    rw [streakBonusSpec, hmin]
    norm_num

/-- Witness for C3 at a concrete singleton completed history. -/
theorem habit_strength_score_witness :
    calculateHabitStrength 10 [⟨⟨5, "h"⟩, "h", 5, true, none, none⟩] =
      strengthSpec 10 [⟨⟨5, "h"⟩, "h", 5, true, none, none⟩] :=
  habit_strength_score.2.1 10 _ (by decide)

/-! ## Scheduling engine (`createInstancesForDay` in `src/services/mockDb.ts`,
lines 347–365) -/

/-- `new Date(dateStr).getDay()` for an epoch-day number:
Sunday = 0 … Saturday = 6 (1970-01-01 was a Thursday). -/
def dayOfWeek (d : Int) : Int := (d + 4) % 7

/-- `isWeekend` as computed in `createInstancesForDay`:
`dayOfWeek === 0 || dayOfWeek === 6`. -/
def isWeekend (d : Int) : Bool := dayOfWeek d = 0 || dayOfWeek d = 6

/-- The schedule filter of `createInstancesForDay`:
`DAILY` always, `WEEKDAYS` iff not weekend, `WEEKENDS` iff weekend,
anything else (i.e. `CUSTOM`) always. -/
def habitDueOn (d : Int) (h : Habit) : Bool :=
  if h.schedule = ScheduleType.DAILY then true
  else if h.schedule = ScheduleType.WEEKDAYS then !(isWeekend d)
  else if h.schedule = ScheduleType.WEEKENDS then isWeekend d
  else true

/-- `createInstancesForDay`: one fresh incomplete instance per due habit,
with the composite identifier. -/
def createInstancesForDay (dateStr : Int) (habits : List Habit) :
    List HabitInstance :=
  (habits.filter (habitDueOn dateStr)).map (fun h =>
    { id := ⟨dateStr, h.id⟩
      habitId := h.id
      date := dateStr
      completed := false })

/-- The spec's due rule, written from its words: `DAILY` → always due;
`WEEKDAYS` → due iff the day-of-week is neither 0 nor 6; `WEEKENDS` → due
iff it is 0 or 6; any other schedule (`CUSTOM`) → always due. -/
def dueSpec (d : Int) (h : Habit) : Prop :=
  match h.schedule with
  | ScheduleType.DAILY => True
  | ScheduleType.WEEKDAYS => ¬(dayOfWeek d = 0 ∨ dayOfWeek d = 6)
  | ScheduleType.WEEKENDS => dayOfWeek d = 0 ∨ dayOfWeek d = 6
  | ScheduleType.CUSTOM => True

/-- The suggested-habit catalog (`SUGGESTED_HABITS` in `mockDb.ts`),
restricted to the fields the verified logic reads. -/
def sh1 : Habit := ⟨"h1", "Morning Run (Gym)", InterestType.HEALTH, ScheduleType.DAILY, 0⟩

def sh2 : Habit := ⟨"h2", "Market Analysis", InterestType.FINANCE, ScheduleType.WEEKDAYS, 0⟩

def sh3 : Habit := ⟨"h3", "Social Media < 30m", InterestType.DETOX, ScheduleType.DAILY, 0⟩

def sh4 : Habit := ⟨"h4", "Read 1 Chapter", InterestType.LEARNING, ScheduleType.DAILY, 0⟩

def sh5 : Habit := ⟨"h5", "Deep Work Session", InterestType.PRODUCTIVITY, ScheduleType.WEEKDAYS, 0⟩

def SUGGESTED_HABITS : List Habit := [sh1, sh2, sh3, sh4, sh5]

/-- C4: the scheduling filter agrees with the spec's due rule on every habit
and date, and on a Saturday (epoch day 2 = 1970-01-03) only the `DAILY`
habit of the pair [h1 DAILY, h2 WEEKDAYS] gets an instance. -/
theorem schedule_filter_spec :
    (∀ (d : Int) (h : Habit), habitDueOn d h = true ↔ dueSpec d h) ∧
      createInstancesForDay 2 [sh1, sh2] =
        [{ id := ⟨2, "h1"⟩, habitId := "h1", date := 2, completed := false }] := by
  constructor
  · intro d h
    rcases h with ⟨id, name, interest, schedule, streak⟩
    cases schedule <;>
      simp [habitDueOn, dueSpec, isWeekend]
  · decide

/-! ## Instance store (`getWeekInstances`, `seedInstancesForWeek` in
`src/services/mockDb.ts`) -/

/-- One iteration of the `for (const date of dates)` loop of
`getWeekInstances`: state is (allInstances, weekInstances). -/
def weekStep (habits : List Habit)
    (state : List HabitInstance × List HabitInstance) (date : Int) :
    List HabitInstance × List HabitInstance :=
  let all := state.1
  let week := state.2
  let dayInst := all.filter (fun i => i.date = date)
  if dayInst.isEmpty then
    let created := createInstancesForDay date habits
    (all ++ created, week ++ created)
  else
    (all, week ++ dayInst)

/-- `getWeekInstances` (`mockDb.ts` lines 233–261): first component is the
stored instance list after the call, second the returned week instances.
The loop runs only when the habit list is nonempty. -/
def getWeekInstances (dates : List Int) (habits : List Habit)
    (all0 : List HabitInstance) : List HabitInstance × List HabitInstance :=
  if habits.isEmpty then (all0, [])
  else dates.foldl (weekStep habits) (all0, [])

theorem mem_createInstancesForDay {i : HabitInstance} {d : Int}
    {habits : List Habit} (hi : i ∈ createInstancesForDay d habits) :
    i.date = d ∧ i.completed = false ∧ i.completedAt = none ∧
      i.id = ⟨i.date, i.habitId⟩ ∧
      ∃ h ∈ habits, h.id = i.habitId ∧ habitDueOn d h = true := by
  simp only [createInstancesForDay, List.mem_map, List.mem_filter] at hi
  obtain ⟨h, ⟨hmem, hdue⟩, rfl⟩ := hi
  exact ⟨rfl, rfl, rfl, rfl, h, hmem, rfl, hdue⟩

/-- The per-(date,habit) delta the spec describes, evaluated against the
pre-call store: for each requested date whose day is unpopulated, the due
habits' fresh instances. -/
def createdFor (dates : List Int) (habits : List Habit)
    (all0 : List HabitInstance) : List HabitInstance :=
  (dates.filter (fun d => (all0.filter (fun i => i.date = d)).isEmpty)).flatMap
    (fun d => createInstancesForDay d habits)

theorem weekFold_fst (habits : List Habit) (all0 : List HabitInstance) :
    ∀ (ds : List Int) (all w : List HabitInstance), ds.Nodup →
    (∀ d ∈ ds, (all.filter (fun i => i.date = d)).isEmpty =
      (all0.filter (fun i => i.date = d)).isEmpty) →
    (ds.foldl (weekStep habits) (all, w)).1 = all ++ createdFor ds habits all0 := by
  intro ds
  induction ds with
  | nil =>
      intro all w _ _
      simp [createdFor]
  | cons d rest ih =>
      intro all w hnd hsame
      have hd := hsame d (by simp)
      have hrest : rest.Nodup := hnd.of_cons
      have hdrest : d ∉ rest := (List.nodup_cons.mp hnd).1
      rcases hb : (all0.filter (fun i => i.date = d)).isEmpty with _ | _
      · -- day d already populated: nothing created for d
        have hstep : weekStep habits (all, w) d =
            (all, w ++ all.filter (fun i => i.date = d)) := by
          simp [weekStep, hd, hb]
        rw [List.foldl_cons, hstep, ih _ _ hrest (fun d' hd' => hsame d' (by simp [hd']))]
        simp [createdFor, hb]
      · -- day d empty: the due habits' instances are created
        have hstep : weekStep habits (all, w) d =
            (all ++ createInstancesForDay d habits,
             w ++ createInstancesForDay d habits) := by
          simp [weekStep, hd, hb]
        have hsame' : ∀ d' ∈ rest,
            (((all ++ createInstancesForDay d habits).filter
              (fun i => i.date = d')).isEmpty) =
            (all0.filter (fun i => i.date = d')).isEmpty := by
          intro d' hd'
          have hdd : d ≠ d' := fun h => hdrest (h ▸ hd')
          have hnone : (createInstancesForDay d habits).filter
              (fun i => i.date = d') = [] := by
            rw [List.filter_eq_nil_iff]
            intro i hi
            have := (mem_createInstancesForDay hi).1
            simp only [decide_eq_true_eq]
            omega
          rw [List.filter_append, hnone, List.append_nil]
          exact hsame d' (by simp [hd'])
        rw [List.foldl_cons, hstep, ih _ _ hrest hsame']
        simp [createdFor, hb, List.append_assoc]

theorem createdFor_of_no_habits (dates : List Int)
    (all0 : List HabitInstance) :
    createdFor dates [] all0 = [] := by
  rw [createdFor]
  induction (dates.filter (fun d => (all0.filter (fun i => i.date = d)).isEmpty)) with
  | nil => rfl
  | cons d rest ih => simp [List.flatMap, createInstancesForDay, ih]

/-- C5 (amended): with pairwise-distinct requested dates, `getWeekInstances`
appends to the store exactly the instances of all due habits for each
requested date whose day had no instance at all, and nothing for any even
partially populated day; every created instance is incomplete, unstamped and
carries the composite identifier of a due habit. -/
theorem getWeekInstances_creates (dates : List Int) (habits : List Habit)
    (all0 : List HabitInstance) (hnd : dates.Nodup) :
    (getWeekInstances dates habits all0).1 = all0 ++ createdFor dates habits all0 ∧
      ∀ i ∈ createdFor dates habits all0,
        i.completed = false ∧ i.completedAt = none ∧
        i.id = ⟨i.date, i.habitId⟩ ∧ i.date ∈ dates ∧
        (all0.filter (fun j => j.date = i.date)).isEmpty = true ∧
        ∃ h ∈ habits, h.id = i.habitId ∧ habitDueOn i.date h = true := by
  constructor
  · rcases hh : habits.isEmpty with _ | _
    · rw [getWeekInstances, hh, if_neg (by simp)]
      exact weekFold_fst habits all0 dates all0 [] hnd (fun _ _ => rfl)
    · rw [getWeekInstances, hh, if_pos rfl]
      rw [List.isEmpty_iff] at hh
      subst hh
      rw [createdFor_of_no_habits, List.append_nil]
  · intro i hi
    simp only [createdFor, List.mem_flatMap, List.mem_filter] at hi
    obtain ⟨d, ⟨hdd, hde⟩, hic⟩ := hi
    obtain ⟨hdate, hcomp, hat, hid, hhab⟩ := mem_createInstancesForDay hic
    subst hdate
    exact ⟨hcomp, hat, hid, hdd, by simpa using hde, hhab⟩

/-- The coverage half of C5 as stated: every (requested date, due habit)
pair with no existing instance keyed by (date, habitId) gets a newly
created instance. The code checks day-level emptiness instead, so this
fails for partially populated days. -/
def claimC5coverage : Prop :=
  ∀ (dates : List Int) (habits : List Habit) (all0 : List HabitInstance)
    (d : Int) (h : Habit), d ∈ dates → h ∈ habits →
    habitDueOn d h = true →
    (∀ i ∈ all0, ¬(i.date = d ∧ i.habitId = h.id)) →
    ∃ i ∈ (getWeekInstances dates habits all0).1.drop all0.length,
      i.date = d ∧ i.habitId = h.id

/-- C5 counterexample: with day 5 already holding h1's instance, the due
habit h4 lacks an instance for day 5, yet the call creates nothing. -/
theorem getWeekInstances_claim_counterexample : ¬ claimC5coverage := by
  intro hclaim
  have h := hclaim [5] [sh1, sh4]
      [⟨⟨5, "h1"⟩, "h1", 5, false, none, none⟩] 5 sh4
      (by decide) (by decide) (by decide) (by decide)
  revert h
  decide

/-- Witness for C5 (amended) on a concrete partially-populated store. -/
theorem getWeekInstances_creates_witness :
    (getWeekInstances [5, 6] [sh1, sh4]
        [⟨⟨5, "h1"⟩, "h1", 5, false, none, none⟩]).1 =
      [⟨⟨5, "h1"⟩, "h1", 5, false, none, none⟩] ++
        createdFor [5, 6] [sh1, sh4]
          [⟨⟨5, "h1"⟩, "h1", 5, false, none, none⟩] :=
  (getWeekInstances_creates [5, 6] [sh1, sh4]
    [⟨⟨5, "h1"⟩, "h1", 5, false, none, none⟩] (by decide)).1

/-- A day is populated in a stored list. -/
def hasDay (all : List HabitInstance) (d : Int) : Prop :=
  ∃ i ∈ all, i.date = d

theorem weekFold_extends (habits : List Habit) :
    ∀ (ds : List Int) (all w : List HabitInstance),
      ∃ c, (ds.foldl (weekStep habits) (all, w)).1 = all ++ c := by
  intro ds
  induction ds with
  | nil =>
      intro all w
      exact ⟨[], by simp⟩
  | cons d rest ih =>
      intro all w
      rw [List.foldl_cons, weekStep]
      split
      · obtain ⟨c, hc⟩ := ih (all ++ createInstancesForDay d habits) _
        exact ⟨createInstancesForDay d habits ++ c, by rw [hc, List.append_assoc]⟩
      · exact ih all _

theorem weekFold_covers (habits : List Habit) :
    ∀ (ds : List Int) (all w : List HabitInstance), ∀ d ∈ ds,
      hasDay ((ds.foldl (weekStep habits) (all, w)).1) d ∨
        createInstancesForDay d habits = [] := by
  intro ds
  induction ds with
  | nil =>
      intro all w d hd
      exact absurd hd (List.not_mem_nil d)
  | cons d0 rest ih =>
      intro all w d hd
      rcases List.mem_cons.mp hd with rfl | hdr
      · -- d is the head; after its step the day is covered (or has no due habits)
        rw [List.foldl_cons, weekStep]
        split
        · rcases hc : createInstancesForDay d habits with _ | ⟨i, is⟩
          · exact Or.inr rfl
          · left
            obtain ⟨c, hfin⟩ := weekFold_extends habits rest _ _
            rw [hfin]
            refine ⟨i, ?_, (mem_createInstancesForDay (by rw [hc]; simp)).1⟩
            simp [hc]
        · left
          rename_i hne
          obtain ⟨c, hfin⟩ := weekFold_extends habits rest _ _
          rw [hfin]
          have : ¬ (List.filter (fun i => decide (i.date = d)) all) = [] := by
            simpa [List.isEmpty_iff] using hne
          obtain ⟨i, hi⟩ := List.exists_mem_of_ne_nil _ this
          have := List.mem_filter.mp hi
          exact ⟨i, by simp [this.1], by simpa using this.2⟩
      · rw [List.foldl_cons]
        exact ih _ _ d hdr

theorem weekFold_noop (habits : List Habit) :
    ∀ (ds : List Int) (all w : List HabitInstance),
      (∀ d ∈ ds, hasDay all d ∨ createInstancesForDay d habits = []) →
      (ds.foldl (weekStep habits) (all, w)).1 = all := by
  intro ds
  induction ds with
  | nil =>
      intro all w _
      rfl
  | cons d rest ih =>
      intro all w hcov
      rw [List.foldl_cons, weekStep]
      rcases he : (all.filter (fun i => i.date = d)).isEmpty with _ | _
      · simp only [he, Bool.false_eq_true, if_false]
        exact ih all _ (fun d' hd' => hcov d' (by simp [hd']))
      · rcases hcov d (by simp) with hday | hnone
        · obtain ⟨i, hi, hdate⟩ := hday
          rw [List.isEmpty_iff, List.filter_eq_nil_iff] at he
          exact absurd (by simpa using hdate) (he i hi)
        · simp only [he, if_true, hnone, List.append_nil]
          exact ih all _ (fun d' hd' => hcov d' (by simp [hd']))

/-- C6: calling `getWeekInstances` again on the store produced by a first
call creates nothing and leaves the store unchanged. -/
theorem getWeekInstances_idempotent (dates : List Int) (habits : List Habit)
    (all0 : List HabitInstance) :
    (getWeekInstances dates habits
        ((getWeekInstances dates habits all0).1)).1 =
      (getWeekInstances dates habits all0).1 := by
  rcases hh : habits.isEmpty with _ | _
  · rw [getWeekInstances, getWeekInstances, hh]
    simp only [Bool.false_eq_true, if_false]
    apply weekFold_noop
    intro d hd
    exact weekFold_covers habits dates all0 [] d hd
  · rw [getWeekInstances, getWeekInstances, hh]
    simp

/-! ## Uniqueness invariant (C7) -/

/-- The (date, habitId) key of a stored instance. -/
def instKey (i : HabitInstance) : Int × String := (i.date, i.habitId)

/-- The store invariant: every instance carries the composite identifier
derived from its date and habit, and (habitId, date) keys are unique. -/
def InstancesInv (all : List HabitInstance) : Prop :=
  (∀ i ∈ all, i.id = ⟨i.date, i.habitId⟩) ∧ (all.map instKey).Nodup

theorem createInstances_keys (d : Int) (habits : List Habit) :
    (createInstancesForDay d habits).map instKey =
      ((habits.filter (habitDueOn d)).map Habit.id).map (fun s => (d, s)) := by
  simp [createInstancesForDay, List.map_map, instKey, Function.comp]

theorem createInstances_keys_nodup (d : Int) {habits : List Habit}
    (hhab : (habits.map Habit.id).Nodup) :
    ((createInstancesForDay d habits).map instKey).Nodup := by
  rw [createInstances_keys]
  refine List.Nodup.map (fun a b h => ?_) ?_
  · simpa using h
  · exact ((List.filter_sublist habits).map Habit.id).nodup hhab

theorem inv_append_day (d : Int) {all : List HabitInstance}
    (batch : List HabitInstance) (hinv : InstancesInv all)
    (hdates : ∀ i ∈ batch, i.date = d)
    (hids : ∀ i ∈ batch, i.id = ⟨i.date, i.habitId⟩)
    (hkeys : (batch.map instKey).Nodup)
    (hno : ∀ i ∈ all, i.date ≠ d) :
    InstancesInv (all ++ batch) := by
  obtain ⟨hid0, hnd0⟩ := hinv
  constructor
  · intro i hi
    rcases List.mem_append.mp hi with h | h
    · exact hid0 i h
    · exact hids i h
  · rw [List.map_append]
    refine List.Nodup.append hnd0 hkeys ?_
    intro k hk1 hk2
    obtain ⟨i, hi, rfl⟩ := List.mem_map.mp hk1
    obtain ⟨j, hj, hkey⟩ := List.mem_map.mp hk2
    have hji : j.date = i.date := by
      have := congrArg Prod.fst hkey
      simpa [instKey] using this
    exact hno i hi (by rw [← hji, hdates j hj])

theorem filter_isEmpty_no_day {all : List HabitInstance} {d : Int}
    (he : (all.filter (fun i => i.date = d)).isEmpty = true) :
    ∀ i ∈ all, i.date ≠ d := by
  rw [List.isEmpty_iff, List.filter_eq_nil_iff] at he
  intro i hi
  simpa using he i hi

theorem weekFold_inv {habits : List Habit}
    (hhab : (habits.map Habit.id).Nodup) :
    ∀ (ds : List Int) (all w : List HabitInstance), InstancesInv all →
      InstancesInv ((ds.foldl (weekStep habits) (all, w)).1) := by
  intro ds
  induction ds with
  | nil =>
      intro all w hinv
      exact hinv
  | cons d rest ih =>
      intro all w hinv
      rw [List.foldl_cons, weekStep]
      rcases he : (all.filter (fun i => i.date = d)).isEmpty with _ | _
      · simp only [he, Bool.false_eq_true, if_false]
        exact ih all _ hinv
      · simp only [he, if_true]
        refine ih _ _ (inv_append_day d _ hinv ?_ ?_ ?_ ?_)
        · exact fun i hi => (mem_createInstancesForDay hi).1
        · exact fun i hi => (mem_createInstancesForDay hi).2.2.2.1
        · exact createInstances_keys_nodup d hhab
        · exact filter_isEmpty_no_day he

/-- One iteration of the seeding loop of `seedInstancesForWeek`
(`mockDb.ts` lines 367–396): `k` ranges over 0…17 for day offsets
−14…3 relative to today; past days (offset < 0, i.e. `k < 14`) get their
fresh instances stochastically marked completed, modelled by the oracle
`rand`. -/
def seedStep (habits : List Habit) (rand : Int → String → Bool)
    (today : Int) (now : Nat) (all : List HabitInstance) (k : Nat) :
    List HabitInstance :=
  let dateStr := today - 14 + k
  let isPast := k < 14
  if (all.filter (fun i => i.date = dateStr)).isEmpty then
    let instances := createInstancesForDay dateStr habits
    let instances :=
      if isPast then
        instances.map (fun inst =>
          if rand dateStr inst.habitId then
            { inst with completed := true, completedAt := some now }
          else inst)
      else instances
    all ++ instances
  else all

/-- `seedInstancesForWeek`: generate instances for the 18-day window around
today, skipping any date that already has instances. -/
def seedInstancesForWeek (habits : List Habit) (rand : Int → String → Bool)
    (today : Int) (now : Nat) (all0 : List HabitInstance) :
    List HabitInstance :=
  (List.range 18).foldl (seedStep habits rand today now) all0

theorem seedFold_inv {habits : List Habit}
    (hhab : (habits.map Habit.id).Nodup) (rand : Int → String → Bool)
    (today : Int) (now : Nat) :
    ∀ (ks : List Nat) (all : List HabitInstance), InstancesInv all →
      InstancesInv (ks.foldl (seedStep habits rand today now) all) := by
  intro ks
  induction ks with
  | nil =>
      intro all hinv
      exact hinv
  | cons k rest ih =>
      intro all hinv
      rw [List.foldl_cons, seedStep]
      rcases he : (all.filter (fun i => i.date = today - 14 + k)).isEmpty with _ | _
      · simp only [he, Bool.false_eq_true, if_false]
        exact ih all hinv
      · simp only [he, if_true]
        set d : Int := today - 14 + (k : Int) with hdd
        set mark := fun inst : HabitInstance =>
          if rand d inst.habitId then
            { inst with completed := true, completedAt := some now }
          else inst with hmark
        have hmark_key : ∀ i : HabitInstance, instKey (mark i) = instKey i := by
          intro i
          rw [hmark]
          dsimp only
          split <;> rfl
        have hmark_date : ∀ i : HabitInstance, (mark i).date = i.date := by
          intro i
          rw [hmark]
          dsimp only
          split <;> rfl
        have hmark_id : ∀ i : HabitInstance,
            (mark i).id = i.id ∧ (mark i).habitId = i.habitId := by
          intro i
          rw [hmark]
          dsimp only
          constructor <;> (split <;> rfl)
        apply ih
        split
        · -- past day: instances are stochastically marked completed
          refine inv_append_day d _ hinv ?_ ?_ ?_ (filter_isEmpty_no_day he)
          · intro i hi
            obtain ⟨j, hj, rfl⟩ := List.mem_map.mp hi
            rw [hmark_date]
            exact (mem_createInstancesForDay hj).1
          · intro i hi
            obtain ⟨j, hj, rfl⟩ := List.mem_map.mp hi
            rw [hmark_date, (hmark_id j).1, (hmark_id j).2]
            exact (mem_createInstancesForDay hj).2.2.2.1
          · rw [List.map_map]
            have : instKey ∘ mark = instKey := funext hmark_key
            rw [this]
            exact createInstances_keys_nodup d hhab
        · refine inv_append_day d _ hinv ?_ ?_ ?_ (filter_isEmpty_no_day he)
          · exact fun i hi => (mem_createInstancesForDay hi).1
          · exact fun i hi => (mem_createInstancesForDay hi).2.2.2.1
          · exact createInstances_keys_nodup d hhab

/-- C7: both instance-creating operations preserve the invariant that the
store holds at most one instance per (habitId, date) pair, each carrying
the composite identifier. -/
theorem instance_store_invariant (habits : List Habit)
    (hhab : (habits.map Habit.id).Nodup)
    (all0 : List HabitInstance) (hinv : InstancesInv all0) :
    (∀ dates : List Int,
      InstancesInv ((getWeekInstances dates habits all0).1)) ∧
    (∀ (rand : Int → String → Bool) (today : Int) (now : Nat),
      InstancesInv (seedInstancesForWeek habits rand today now all0)) := by
  constructor
  · intro dates
    rw [getWeekInstances]
    split
    · exact hinv
    · exact weekFold_inv hhab dates all0 [] hinv
  · intro rand today now
    exact seedFold_inv hhab rand today now (List.range 18) all0 hinv

/-- Witness for C7 on a concrete store and habit list. -/
theorem instance_store_invariant_witness :
    InstancesInv ((getWeekInstances [3] [sh1]
        [⟨⟨2, "h9"⟩, "h9", 2, true, none, none⟩]).1) :=
  (instance_store_invariant [sh1] (by decide)
    [⟨⟨2, "h9"⟩, "h9", 2, true, none, none⟩]
    ⟨by decide, by decide⟩).1 [3]

/-! ## Completion toggle (`updateInstanceStatus` in `src/services/mockDb.ts`,
lines 263–276) -/

/-- The field update `updateInstanceStatus` applies to the found instance:
set the completed flag; stamp the timestamp only when completing
(`if (completed) ...` — there is no clearing branch); record the value only
when one was passed. -/
def applyStatus (now : Nat) (completed : Bool) (value : Option Int)
    (i : HabitInstance) : HabitInstance :=
  { i with
    completed := completed
    completedAt := if completed then some now else i.completedAt
    value := match value with
      | some v => some v
      | none => i.value }

/-- `updateInstanceStatus`: find the first instance with the identifier
(`findIndex`) and update it in place; no match means no change. -/
def updateInstanceStatus (now : Nat) (instanceId : InstanceId)
    (completed : Bool) (value : Option Int) :
    List HabitInstance → List HabitInstance
  | [] => []
  | i :: rest =>
      if i.id = instanceId then applyStatus now completed value i :: rest
      else i :: updateInstanceStatus now instanceId completed value rest

/-- C8 (amended): `updateInstanceStatus` replaces exactly the first stored
instance carrying the identifier — setting its completed flag, stamping the
timestamp when completing and leaving the existing timestamp untouched when
un-completing, recording the value when one is passed — and is a no-op when
no stored instance has the identifier. -/
theorem updateInstanceStatus_spec :
    (∀ (now : Nat) (iid : InstanceId) (c : Bool) (v : Option Int)
      (l : List HabitInstance), (∀ i ∈ l, i.id ≠ iid) →
      updateInstanceStatus now iid c v l = l) ∧
    (∀ (now : Nat) (iid : InstanceId) (c : Bool) (v : Option Int)
      (pre : List HabitInstance) (x : HabitInstance)
      (post : List HabitInstance), (∀ i ∈ pre, i.id ≠ iid) → x.id = iid →
      updateInstanceStatus now iid c v (pre ++ x :: post) =
        pre ++ applyStatus now c v x :: post) := by
  constructor
  · intro now iid c v l hl
    induction l with
    | nil => rfl
    | cons i rest ih =>
        rw [updateInstanceStatus, if_neg (hl i (by simp)),
          ih (fun j hj => hl j (by simp [hj]))]
  · intro now iid c v pre x post hpre hx
    induction pre with
    | nil => simp [updateInstanceStatus, hx]
    | cons p ps ih =>
        rw [List.cons_append, updateInstanceStatus,
          if_neg (hpre p (by simp)),
          ih (fun j hj => hpre j (by simp [hj]))]
        rfl

/-- The timestamp-clearing half of C8 as stated: after un-completing, the
instance carrying the identifier has no completion timestamp. The code has
no clearing branch, so a previously stamped instance keeps its timestamp. -/
def claimC8clears : Prop :=
  ∀ (now : Nat) (iid : InstanceId) (v : Option Int)
    (l : List HabitInstance), (l.map (fun i => i.id)).Nodup →
    ∀ j ∈ updateInstanceStatus now iid false v l, j.id = iid →
    j.completedAt = none

/-- C8 counterexample: un-completing a stamped instance leaves its stale
timestamp in place instead of clearing it. -/
theorem updateInstanceStatus_claim_counterexample : ¬ claimC8clears := by
  intro hclaim
  have h := hclaim 9 ⟨3, "h"⟩ none
      [⟨⟨3, "h"⟩, "h", 3, true, some 5, none⟩] (by decide)
  revert h
  decide

/-- Witness for C8 (amended) on a concrete two-instance store. -/
theorem updateInstanceStatus_spec_witness :
    updateInstanceStatus 9 ⟨4, "h"⟩ false none
        ([⟨⟨3, "g"⟩, "g", 3, true, some 5, none⟩] ++
          ⟨⟨4, "h"⟩, "h", 4, true, some 6, none⟩ :: []) =
      [⟨⟨3, "g"⟩, "g", 3, true, some 5, none⟩] ++
        applyStatus 9 false none ⟨⟨4, "h"⟩, "h", 4, true, some 6, none⟩ :: [] :=
  updateInstanceStatus_spec.2 9 ⟨4, "h"⟩ false none
    [⟨⟨3, "g"⟩, "g", 3, true, some 5, none⟩]
    ⟨⟨4, "h"⟩, "h", 4, true, some 6, none⟩ [] (by decide) (by decide)

/-! ## Suggestion engine (`getSuggestions` in `src/services/mockDb.ts`,
lines 79–87) -/

/-- `getSuggestions`: filter the catalog by the requested interests; if
fewer than 5 matched, backfill with not-yet-selected catalog entries
(`slice(0, remaining)`); truncate to 5. -/
def getSuggestions (interests : List InterestType) : List Habit :=
  let suggestions := SUGGESTED_HABITS.filter (fun h => h.interest ∈ interests)
  let suggestions :=
    if suggestions.length < 5 then
      let remaining := 5 - suggestions.length
      let defaults :=
        (SUGGESTED_HABITS.filter
          (fun h => !(suggestions.any (fun s => s.id = h.id)))).take remaining
      suggestions ++ defaults
    else suggestions
  suggestions.take 5

/-- The spec's suggestion algorithm over an arbitrary catalog and target
count: matched entries in catalog order, backfilled with not-already-selected
entries in catalog order up to the target, truncated to the target. -/
def suggestSpec (interests : List InterestType) (catalog : List Habit)
    (targetCount : Nat) : List Habit :=
  let matched := catalog.filter (fun h => h.interest ∈ interests)
  let backfill :=
    (catalog.filter (fun h => h.id ∉ matched.map Habit.id)).take
      (targetCount - matched.length)
  (matched ++ backfill).take targetCount

theorem suggestions_filter_agree (interests : List InterestType)
    (catalog : List Habit) :
    catalog.filter
        (fun h => !((catalog.filter (fun x => x.interest ∈ interests)).any
          (fun s => s.id = h.id))) =
      catalog.filter
        (fun h => h.id ∉ (catalog.filter
          (fun x => x.interest ∈ interests)).map Habit.id) := by
  apply List.filter_congr
  intro h _
  by_cases hmem : h.id ∈ (catalog.filter
      (fun x => x.interest ∈ interests)).map Habit.id
  · obtain ⟨s, hs, hsid⟩ := List.mem_map.mp hmem
    have hany : (catalog.filter (fun x => x.interest ∈ interests)).any
        (fun s => decide (s.id = h.id)) = true :=
      List.any_eq_true.mpr ⟨s, hs, by simp [hsid]⟩
    simp [hany, hmem]
  · have hany : (catalog.filter (fun x => x.interest ∈ interests)).any
        (fun s => decide (s.id = h.id)) = false := by
      rw [List.any_eq_false]
      intro s hs
      simp only [decide_eq_true_eq]
      intro hsid
      exact hmem (List.mem_map.mpr ⟨s, hs, hsid⟩)
    simp [hany, hmem]

theorem getSuggestions_eq_suggestSpec (interests : List InterestType) :
    getSuggestions interests = suggestSpec interests SUGGESTED_HABITS 5 := by
  rw [getSuggestions, suggestSpec]
  rcases h5 : decide
      ((SUGGESTED_HABITS.filter (fun h => h.interest ∈ interests)).length < 5)
    with _ | _
  · have hge : ¬ (SUGGESTED_HABITS.filter
        (fun h => h.interest ∈ interests)).length < 5 := by
      simpa using h5
    rw [if_neg hge]
    have : 5 - (SUGGESTED_HABITS.filter
        (fun h => h.interest ∈ interests)).length = 0 := by omega
    rw [this, List.take_zero, List.append_nil]
  · have hlt : (SUGGESTED_HABITS.filter
        (fun h => h.interest ∈ interests)).length < 5 := by
      simpa using h5
    rw [if_pos hlt, suggestions_filter_agree]

theorem suggest_ids_nodup (interests : List InterestType)
    {catalog : List Habit} (hcat : (catalog.map Habit.id).Nodup)
    (targetCount : Nat) :
    ((suggestSpec interests catalog targetCount).map Habit.id).Nodup := by
  rw [suggestSpec]
  have hm : ((catalog.filter (fun h => h.interest ∈ interests)).map
      Habit.id).Nodup :=
    ((List.filter_sublist catalog).map Habit.id).nodup hcat
  have hsub : ((catalog.filter (fun h => h.id ∉ (catalog.filter
      (fun x => x.interest ∈ interests)).map Habit.id)).take
      (targetCount - (catalog.filter
        (fun h => h.interest ∈ interests)).length)).Sublist catalog :=
    (List.take_sublist _ _).trans (List.filter_sublist catalog)
  have hb : (((catalog.filter (fun h => h.id ∉ (catalog.filter
      (fun x => x.interest ∈ interests)).map Habit.id)).take
      (targetCount - (catalog.filter
        (fun h => h.interest ∈ interests)).length)).map Habit.id).Nodup :=
    (hsub.map Habit.id).nodup hcat
  refine List.Sublist.nodup ((List.take_sublist _ _).map Habit.id) ?_
  rw [List.map_append]
  refine List.Nodup.append hm hb ?_
  intro a ha hb2
  obtain ⟨j, hj, rfl⟩ := List.mem_map.mp hb2
  have hj' := List.mem_filter.mp (List.mem_of_mem_take hj)
  have : j.id ∉ (catalog.filter (fun x => x.interest ∈ interests)).map
      Habit.id := by
    simpa using hj'.2
  exact this ha

/-- C9: `getSuggestions` equals the spec's select/backfill/truncate
algorithm with target count 5 over the built-in catalog; its result never
repeats a habit id; and for interests = [HEALTH] it returns the single
HEALTH habit followed by 4 backfilled habits. -/
theorem suggestion_engine_spec :
    (∀ interests : List InterestType,
      getSuggestions interests = suggestSpec interests SUGGESTED_HABITS 5) ∧
    (∀ interests : List InterestType,
      ((getSuggestions interests).map Habit.id).Nodup) ∧
    getSuggestions [InterestType.HEALTH] = [sh1, sh2, sh3, sh4, sh5] := by
  refine ⟨getSuggestions_eq_suggestSpec, ?_, by decide⟩
  intro interests
  rw [getSuggestions_eq_suggestSpec]
  exact suggest_ids_nodup interests (by decide) 5

/-! ## Tasks & projects (`mockDb.ts` lines 278–344) -/

/-- Modelled from the spec: the project status domain (`types.ts` is not in
the given sources); spec §3 gives `active | completed`. -/
inductive ProjectStatus where
  | active
  | completed
deriving DecidableEq, Repr

/-- A one-off todo (`Task` in `types.ts`), restricted to the fields the
project-progress logic reads. -/
structure Task where
  id : String
  projectId : Option String := none
  completed : Bool := false
deriving DecidableEq, Repr

/-- A task grouping (`Project` in `types.ts`) with derived progress and
status. -/
structure Project where
  id : String
  progress : Int := 0
  status : ProjectStatus := ProjectStatus.active
deriving DecidableEq, Repr

/-- The stored task and project lists. -/
structure TPState where
  tasks : List Task
  projects : List Project
deriving DecidableEq, Repr

/-- A `Partial<Task>` restricted to the fields the claims touch: a `some`
field is a key present in the update object. -/
structure TaskUpdate where
  projectId : Option (Option String) := none
  completed : Option Bool := none

/-- The JS spread `{ ...task, ...updates }`. -/
def applyUpdate (u : TaskUpdate) (t : Task) : Task :=
  { t with
    projectId := u.projectId.getD t.projectId
    completed := u.completed.getD t.completed }

/-- The progress computation of `updateProjectProgress` (`mockDb.ts`
lines 329–334): completed fraction of the project's member tasks, rounded;
0 for a memberless project. -/
def pureProgress (tasks : List Task) (projectId : String) : Int :=
  let projectTasks := tasks.filter (fun t => t.projectId = some projectId)
  let total := projectTasks.length
  let completed := (projectTasks.filter (fun t => t.completed)).length
  if total = 0 then 0 else jsRound (((completed : ℚ) / (total : ℚ)) * 100)

/-- The in-place mutation of the found project (`mockDb.ts` lines 339–341):
set progress; status becomes completed at 100, and an obsolete completed
status is demoted to active below 100. -/
def recomputeProject (progress : Int) (p : Project) : Project :=
  { p with
    progress := progress
    status :=
      if progress = 100 then ProjectStatus.completed
      else if p.status = ProjectStatus.completed ∧ progress < 100 then
        ProjectStatus.active
      else p.status }

/-- `projects.findIndex` followed by the in-place mutation: update the
first project carrying the identifier, if any. -/
def updateFirstProject (projectId : String) (progress : Int) :
    List Project → List Project
  | [] => []
  | p :: ps =>
      if p.id = projectId then recomputeProject progress p :: ps
      else p :: updateFirstProject projectId progress ps

/-- `updateProjectProgress` (`mockDb.ts` lines 328–344): recompute the
referenced project's progress (the inline lines 329–334 are factored here
as `pureProgress`) and write it back. -/
def updateProjectProgress (projectId : String) (st : TPState) : TPState :=
  { st with projects := updateFirstProject projectId (pureProgress st.tasks projectId) st.projects }

/-- `addTask`: append, then recompute the task's project if it has one. -/
def addTask (t : Task) (st : TPState) : TPState :=
  let st' := { st with tasks := st.tasks ++ [t] }
  match t.projectId with
  | some pid => updateProjectProgress pid st'
  | none => st'

/-- `tasks[idx] = updated` for the first index whose task carries the id. -/
def replaceFirstTask (taskId : String) (newT : Task) : List Task → List Task
  | [] => []
  | t :: ts =>
      if t.id = taskId then newT :: ts
      else t :: replaceFirstTask taskId newT ts

/-- `updateTask`: merge the update into the first task with the id; if the
merged task references a project, recompute that project (only that one —
a project the task moved away from is not recomputed). -/
def updateTask (taskId : String) (u : TaskUpdate) (st : TPState) : TPState :=
  match st.tasks.find? (fun t => t.id = taskId) with
  | none => st
  | some t =>
      let updated := applyUpdate u t
      let st' := { st with tasks := replaceFirstTask taskId updated st.tasks }
      match updated.projectId with
      | some pid => updateProjectProgress pid st'
      | none => st'

/-- `deleteTask`: drop every task with the id; if the (first) dropped task
referenced a project, recompute it. -/
def deleteTask (taskId : String) (st : TPState) : TPState :=
  let task := st.tasks.find? (fun t => t.id = taskId)
  let st' := { st with tasks := st.tasks.filter (fun t => ¬ t.id = taskId) }
  match task with
  | some t =>
      match t.projectId with
      | some pid => updateProjectProgress pid st'
      | none => st'
  | none => st'

/-- After an operation, the project decomposed as the first one carrying
`pid` has been recomputed as a pure function of the operation's task set. -/
def recomputedFor (stOut : TPState) (pid : String) (pre : List Project)
    (p : Project) (post : List Project) : Prop :=
  stOut.projects =
      pre ++ recomputeProject (pureProgress stOut.tasks pid) p :: post ∧
    (recomputeProject (pureProgress stOut.tasks pid) p).progress =
      pureProgress stOut.tasks pid ∧
    (recomputeProject (pureProgress stOut.tasks pid) p).status =
      (if pureProgress stOut.tasks pid = 100 then ProjectStatus.completed
       else ProjectStatus.active)

theorem pureProgress_bounds (tasks : List Task) (pid : String) :
    0 ≤ pureProgress tasks pid ∧ pureProgress tasks pid ≤ 100 := by
  simp only [pureProgress]
  rcases eq_or_ne (tasks.filter (fun t => t.projectId = some pid)).length 0
    with h | h
  · simp [h]
  · have h1 : 1 ≤ (tasks.filter (fun t => t.projectId = some pid)).length :=
      Nat.one_le_iff_ne_zero.mpr h
    have hct : ((tasks.filter (fun t => t.projectId = some pid)).filter
        (fun t => t.completed)).length ≤
        (tasks.filter (fun t => t.projectId = some pid)).length :=
      List.length_filter_le _ _
    have htq : (0 : ℚ) <
        ((tasks.filter (fun t => t.projectId = some pid)).length : ℚ) := by
      exact_mod_cast h1
    have h0 : (0 : ℚ) ≤
        (((tasks.filter (fun t => t.projectId = some pid)).filter
          (fun t => t.completed)).length : ℚ) /
          ((tasks.filter (fun t => t.projectId = some pid)).length : ℚ) *
          100 := by positivity
    have hle :
        (((tasks.filter (fun t => t.projectId = some pid)).filter
          (fun t => t.completed)).length : ℚ) /
          ((tasks.filter (fun t => t.projectId = some pid)).length : ℚ) *
          100 ≤ 100 := by
      have hd : (((tasks.filter (fun t => t.projectId = some pid)).filter
          (fun t => t.completed)).length : ℚ) /
          ((tasks.filter (fun t => t.projectId = some pid)).length : ℚ) ≤ 1 := by
        rw [div_le_one htq]
        exact_mod_cast hct
      linarith
    rw [if_neg h]
    exact jsRound_nonneg_le h0 hle

theorem recomputeProject_status {progress : Int} (p : Project)
    (hle : progress ≤ 100) :
    (recomputeProject progress p).status =
      (if progress = 100 then ProjectStatus.completed
       else ProjectStatus.active) := by
  rw [recomputeProject]
  by_cases h100 : progress = 100
  · simp [h100]
  · have hlt : progress < 100 := lt_of_le_of_ne hle h100
    cases hst : p.status <;> simp [h100, hst, hlt]

theorem updateFirstProject_decomp (pid : String) (prog : Int) :
    ∀ (pre : List Project) (p : Project) (post : List Project),
      (∀ q ∈ pre, q.id ≠ pid) → p.id = pid →
      updateFirstProject pid prog (pre ++ p :: post) =
        pre ++ recomputeProject prog p :: post := by
  intro pre
  induction pre with
  | nil =>
      intro p post _ hp
      simp [updateFirstProject, hp]
  | cons q qs ih =>
      intro p post hpre hp
      rw [List.cons_append, updateFirstProject.eq_def]
      simp only [List.cons_append]
      rw [if_neg (hpre q (by simp))]
      rw [ih _ _ (fun r hr => hpre r (by simp [hr])) hp]

theorem updateProjectProgress_recomputes (pid : String) (st : TPState)
    (pre : List Project) (p : Project) (post : List Project)
    (hdecomp : st.projects = pre ++ p :: post)
    (hpre : ∀ q ∈ pre, q.id ≠ pid) (hp : p.id = pid) :
    recomputedFor (updateProjectProgress pid st) pid pre p post := by
  refine ⟨?_, rfl, ?_⟩
  · have htasks : (updateProjectProgress pid st).tasks = st.tasks := rfl
    show (updateProjectProgress pid st).projects =
      pre ++ recomputeProject
        (pureProgress (updateProjectProgress pid st).tasks pid) p :: post
    rw [htasks]
    show updateFirstProject pid (pureProgress st.tasks pid) st.projects = _
    rw [hdecomp, updateFirstProject_decomp pid _ pre p post hpre hp]
  · exact recomputeProject_status p (pureProgress_bounds _ pid).2

/-- C10 (amended): each task mutation recomputes the project referenced by
the task after the mutation — that project's stored progress and status
become the pure 100·completed/total rounding over the post-mutation task
set (completed exactly at 100, active otherwise). A project a task moves
away from via `updateTask` is not recomputed (see the counterexample). The
final conjunct is the 4-task scenario. -/
theorem project_progress_recompute :
    (∀ (st : TPState) (t : Task) (pid : String), t.projectId = some pid →
      ∀ (pre : List Project) (p : Project) (post : List Project),
        st.projects = pre ++ p :: post → (∀ q ∈ pre, q.id ≠ pid) →
        p.id = pid → recomputedFor (addTask t st) pid pre p post) ∧
    (∀ (st : TPState) (tid : String) (u : TaskUpdate) (t : Task),
      st.tasks.find? (fun x => x.id = tid) = some t →
      ∀ pid : String, (applyUpdate u t).projectId = some pid →
      ∀ (pre : List Project) (p : Project) (post : List Project),
        st.projects = pre ++ p :: post → (∀ q ∈ pre, q.id ≠ pid) →
        p.id = pid → recomputedFor (updateTask tid u st) pid pre p post) ∧
    (∀ (st : TPState) (tid : String) (t : Task),
      st.tasks.find? (fun x => x.id = tid) = some t →
      ∀ pid : String, t.projectId = some pid →
      ∀ (pre : List Project) (p : Project) (post : List Project),
        st.projects = pre ++ p :: post → (∀ q ∈ pre, q.id ≠ pid) →
        p.id = pid → recomputedFor (deleteTask tid st) pid pre p post) ∧
    ((addTask ⟨"t4", some "p", false⟩
        (addTask ⟨"t3", some "p", true⟩
          (addTask ⟨"t2", some "p", true⟩
            (addTask ⟨"t1", some "p", true⟩
              ⟨[], [⟨"p", 0, ProjectStatus.active⟩]⟩)))).projects =
        [⟨"p", 75, ProjectStatus.active⟩] ∧
      (updateTask "t4" ⟨none, some true⟩
          (addTask ⟨"t4", some "p", false⟩
            (addTask ⟨"t3", some "p", true⟩
              (addTask ⟨"t2", some "p", true⟩
                (addTask ⟨"t1", some "p", true⟩
                  ⟨[], [⟨"p", 0, ProjectStatus.active⟩]⟩))))).projects =
        [⟨"p", 100, ProjectStatus.completed⟩]) := by
  have h1 : addTask ⟨"t1", some "p", true⟩
      ⟨[], [⟨"p", 0, ProjectStatus.active⟩]⟩ =
      ⟨[⟨"t1", some "p", true⟩], [⟨"p", 100, ProjectStatus.completed⟩]⟩ := by
    simp [addTask, updateProjectProgress, updateFirstProject,
      pureProgress, recomputeProject, jsRound]
    norm_num [Int.floor_eq_iff]
  have h2 : addTask ⟨"t2", some "p", true⟩
      ⟨[⟨"t1", some "p", true⟩], [⟨"p", 100, ProjectStatus.completed⟩]⟩ =
      ⟨[⟨"t1", some "p", true⟩, ⟨"t2", some "p", true⟩],
       [⟨"p", 100, ProjectStatus.completed⟩]⟩ := by
    simp [addTask, updateProjectProgress, updateFirstProject,
      pureProgress, recomputeProject, jsRound]
    norm_num [Int.floor_eq_iff]
  have h3 : addTask ⟨"t3", some "p", true⟩
      ⟨[⟨"t1", some "p", true⟩, ⟨"t2", some "p", true⟩],
       [⟨"p", 100, ProjectStatus.completed⟩]⟩ =
      ⟨[⟨"t1", some "p", true⟩, ⟨"t2", some "p", true⟩,
        ⟨"t3", some "p", true⟩],
       [⟨"p", 100, ProjectStatus.completed⟩]⟩ := by
    simp [addTask, updateProjectProgress, updateFirstProject,
      pureProgress, recomputeProject, jsRound]
    norm_num [Int.floor_eq_iff]
  have h4 : addTask ⟨"t4", some "p", false⟩
      ⟨[⟨"t1", some "p", true⟩, ⟨"t2", some "p", true⟩,
        ⟨"t3", some "p", true⟩],
       [⟨"p", 100, ProjectStatus.completed⟩]⟩ =
      ⟨[⟨"t1", some "p", true⟩, ⟨"t2", some "p", true⟩,
        ⟨"t3", some "p", true⟩, ⟨"t4", some "p", false⟩],
       [⟨"p", 75, ProjectStatus.active⟩]⟩ := by
    simp [addTask, updateProjectProgress, updateFirstProject,
      pureProgress, recomputeProject, jsRound]
    norm_num [Int.floor_eq_iff]
  have h5 : updateTask "t4" ⟨none, some true⟩
      ⟨[⟨"t1", some "p", true⟩, ⟨"t2", some "p", true⟩,
        ⟨"t3", some "p", true⟩, ⟨"t4", some "p", false⟩],
       [⟨"p", 75, ProjectStatus.active⟩]⟩ =
      ⟨[⟨"t1", some "p", true⟩, ⟨"t2", some "p", true⟩,
        ⟨"t3", some "p", true⟩, ⟨"t4", some "p", true⟩],
       [⟨"p", 100, ProjectStatus.completed⟩]⟩ := by
    simp [updateTask, applyUpdate, replaceFirstTask, List.find?,
      updateProjectProgress, updateFirstProject, pureProgress,
      recomputeProject, jsRound]
    norm_num [Int.floor_eq_iff]
  refine ⟨?_, ?_, ?_, by rw [h1, h2, h3, h4], by rw [h1, h2, h3, h4, h5]⟩
  · intro st t pid ht pre p post hdecomp hpre hp
    simp only [addTask, ht]
    exact updateProjectProgress_recomputes pid _ pre p post hdecomp hpre hp
  · intro st tid u t hfind pid hpid pre p post hdecomp hpre hp
    simp only [updateTask, hfind, hpid]
    exact updateProjectProgress_recomputes pid _ pre p post hdecomp hpre hp
  · intro st tid t hfind pid hpid pre p post hdecomp hpre hp
    simp only [deleteTask, hfind, hpid]
    exact updateProjectProgress_recomputes pid _ pre p post hdecomp hpre hp

/-- C10 as stated: after `updateTask`, every project the task touches
(its project before or after the update) stores the pure progress/status of
the current task set. -/
def claimC10allAffected : Prop :=
  ∀ (st : TPState) (tid : String) (u : TaskUpdate) (t : Task),
    st.tasks.find? (fun x => x.id = tid) = some t →
    ∀ p ∈ (updateTask tid u st).projects,
      (t.projectId = some p.id ∨ (applyUpdate u t).projectId = some p.id) →
      p.progress = pureProgress (updateTask tid u st).tasks p.id ∧
      p.status = (if pureProgress (updateTask tid u st).tasks p.id = 100
        then ProjectStatus.completed else ProjectStatus.active)

/-- C10 counterexample: moving a task from p1 to p2 leaves p1's stored
progress stale (50 stored, 100 true). -/
theorem project_progress_claim_counterexample : ¬ claimC10allAffected := by
  intro hclaim
  have hupd : updateTask "t2" ⟨some (some "p2"), none⟩
      ⟨[⟨"t1", some "p1", true⟩, ⟨"t2", some "p1", false⟩],
       [⟨"p1", 50, ProjectStatus.active⟩]⟩ =
      ⟨[⟨"t1", some "p1", true⟩, ⟨"t2", some "p2", false⟩],
       [⟨"p1", 50, ProjectStatus.active⟩]⟩ := by
    simp [updateTask, applyUpdate, replaceFirstTask, List.find?,
      updateProjectProgress, updateFirstProject]
  have h := hclaim
      ⟨[⟨"t1", some "p1", true⟩, ⟨"t2", some "p1", false⟩],
       [⟨"p1", 50, ProjectStatus.active⟩]⟩
      "t2" ⟨some (some "p2"), none⟩ ⟨"t2", some "p1", false⟩
      (by decide) ⟨"p1", 50, ProjectStatus.active⟩
      (by rw [hupd]; decide) (Or.inl rfl)
  rw [hupd] at h
  have hpp : pureProgress
      [⟨"t1", some "p1", true⟩, ⟨"t2", some "p2", false⟩] "p1" = 100 := by
    simp [pureProgress, jsRound]
    norm_num [Int.floor_eq_iff]
  dsimp only at h
  rw [hpp] at h
  exact absurd h.1 (by decide)

/-- Witness for C10 (amended): add a completed task to a fresh one-project
store. -/
theorem project_progress_recompute_witness :
    recomputedFor
        (addTask ⟨"t9", some "p", true⟩ ⟨[], [⟨"p", 0, ProjectStatus.active⟩]⟩)
        "p" [] ⟨"p", 0, ProjectStatus.active⟩ [] :=
  project_progress_recompute.1 ⟨[], [⟨"p", 0, ProjectStatus.active⟩]⟩
    ⟨"t9", some "p", true⟩ "p" rfl [] ⟨"p", 0, ProjectStatus.active⟩ []
    rfl (by simp) rfl

end MyCore
